import Mathlib

/-! Verification of `glob` (src/glob.h).

A shallow embedding of the single function of the repository,
`int glob(std::string_view test, std::string_view glob)`.

* A `std::string_view` is a `List Byte`; `remove_prefix(1)` is `List.tail`
  and is only defined on a non-empty view.
* The local `std::vector<position> positions` is a `List position`.
* The result is `Option Int`: `some r` when the C++ function returns `r`,
  `none` when an access would be out of bounds (an empty view or vector).
-/

namespace Glob

/-- One `char` of a `std::string_view`. -/
abbrev Byte := UInt8

/-- The byte `'*'`. -/
def star : Byte := 42

/-- The byte `'?'`. -/
def qmark : Byte := 63

/-- The local `struct position` of `glob`: the remainder of the string to test
and the remainder of the pattern. -/
structure position where
  testpos : List Byte
  globpos : List Byte
deriving DecidableEq, Repr

/-- The inner loop
`while (current.globpos.size() && current.globpos[0] == '*') current.globpos.remove_prefix(1);`
as a function of `current.globpos`. -/
def skipStars : List Byte → List Byte
  | [] => []
  | c :: g => if c = star then skipStars g else c :: g

/-- How one run of the `for` loop of `glob` ends. -/
inductive ScanResult where
  /-- The statement `return 0;` inside the loop (wildcard at the end of the pattern). -/
  | ret0 : ScanResult
  /-- The loop reached `const position p = current;` with `current = cur`. -/
  | push (cur : position) : ScanResult
  /-- The loop was left through its condition (`mtch = true`) or through `break`
  (`mtch = false`), with `current = cur`. -/
  | done (cur : position) (mtch : Bool) : ScanResult
deriving DecidableEq, Repr

/-- The `for` loop of `glob`, run on `current.testpos` and `current.globpos`:
`for (; current.testpos.size() && current.globpos.size(); current.globpos.remove_prefix(1))`. -/
def scan : List Byte → List Byte → ScanResult
  | [], g => .done ⟨[], g⟩ true
  | tc :: t, [] => .done ⟨tc :: t, []⟩ true
  | tc :: t, gc :: g =>
    if gc = qmark then
      scan t g
    else if gc = star then
      if skipStars (gc :: g) = [] then .ret0
      else .push ⟨tc :: t, skipStars (gc :: g)⟩
    else if gc ≠ tc then
      .done ⟨tc :: t, gc :: g⟩ false
    else
      scan t g

/-- Writing through the reference `current = positions.back()`: the last element of the
vector is replaced. -/
def setBack (positions : List position) (cur : position) : List position :=
  positions.dropLast ++ [cur]

/-- The statements
`positions.push_back(p); if (positions.size() > 2) positions.erase(positions.begin());`. -/
def pushCapped (positions : List position) (p : position) : List position :=
  if (positions ++ [p]).length > 2 then (positions ++ [p]).tail else positions ++ [p]

/-- The termination measure of the outer loop: the longest pattern remainder among the
last two entries, then the subject remainder of the entry below the top. -/
def loopMeasure (positions : List position) : Nat × Nat :=
  match positions.reverse with
  | [] => (0, 0)
  | [c] => (c.globpos.length, 0)
  | c :: p :: _ => (max p.globpos.length c.globpos.length, p.testpos.length)

/-- The last branch of the loop body:
`auto &previous = positions[positions.size() - 2]; previous.testpos.remove_prefix(1); current = previous;`.
The result is `none` when the index is out of bounds or `previous.testpos` is empty. -/
def backtrack (positions : List position) : Option (List position) :=
  if positions.length < 2 then none
  else
    match positions[positions.length - 2]? with
    | none => none
    | some previous =>
      match previous.testpos with
      | [] => none
      | _ :: t =>
        some (setBack (positions.set (positions.length - 2) ⟨t, previous.globpos⟩)
          ⟨t, previous.globpos⟩)

/-- The reference glob semantics, following the words of the specification: the empty
pattern matches only the empty subject; `?` followed by `p` matches `c :: s` iff `p`
matches `s`; `*` followed by `p` matches `s` iff `p` matches some suffix of `s`; any other
byte `b` followed by `p` matches `c :: s` iff `b = c` and `p` matches `s`.
`refMatch p s` is `true` iff the pattern `p` matches the whole of the subject `s`. -/
def refMatch : List Byte → List Byte → Bool
  | [], s => s.isEmpty
  | b :: p, s =>
    if b = qmark then
      match s with
      | [] => false
      | _ :: s' => refMatch p s'
    else if b = star then
      s.tails.any (fun u => refMatch p u)
    else
      match s with
      | [] => false
      | c :: s' => b == c && refMatch p s'

/-- The number of bytes of a pattern that are not `*`. -/
def nonStar (p : List Byte) : Nat :=
  (p.filter (fun b => b != star)).length

/-- Bytes of an ASCII string literal, for writing down concrete inputs. -/
def bytes (s : String) : List Byte :=
  s.toList.map (fun c => c.toNat.toUInt8)


/-! ## Termination of the outer loop -/

theorem skipStars_length_le (g : List Byte) : (skipStars g).length ≤ g.length := by
  induction g with
  | nil => simp [skipStars]
  | cons c g ih =>
    unfold skipStars
    split
    · simp only [List.length_cons]; omega
    · exact Nat.le_refl _

theorem scan_push_length {t g : List Byte} {cur : position} (h : scan t g = .push cur) :
    cur.globpos.length < g.length := by
  induction g generalizing t with
  | nil => cases t <;> simp [scan] at h
  | cons gc g ih =>
    cases t with
    | nil => simp [scan] at h
    | cons tc t =>
      simp only [scan] at h
      split at h
      · have := ih h
        simp only [List.length_cons]; omega
      · split at h
        · split at h
          · cases h
          · rename_i hs _
            cases h
            subst hs
            have := skipStars_length_le g
            simp only [skipStars, if_true, List.length_cons]
            omega
        · split at h
          · cases h
          · have := ih h
            simp only [List.length_cons]; omega

theorem loopMeasure_append_two (xs : List position) (p c : position) :
    loopMeasure (xs ++ [p, c]) = (max p.globpos.length c.globpos.length, p.testpos.length) := by
  simp [loopMeasure]

theorem exists_append_two {ps : List position} (h : 2 ≤ ps.length) :
    ∃ xs p c, ps = xs ++ [p, c] := by
  induction ps using List.reverseRecOn with
  | nil => simp at h
  | append_singleton ys c _ =>
    induction ys using List.reverseRecOn with
    | nil => simp at h
    | append_singleton xs p _ => exact ⟨xs, p, c, by simp⟩

theorem setBack_append_two (xs : List position) (p c cur : position) :
    setBack (xs ++ [p, c]) cur = xs ++ [p, cur] := by
  have : xs ++ [p, c] = (xs ++ [p]) ++ [c] := by simp
  rw [setBack, this, List.dropLast_concat]; simp

theorem pushCapped_append_two (xs : List position) (p c cur : position) :
    ∃ ys, pushCapped (xs ++ [p, c]) cur = ys ++ [c, cur] := by
  unfold pushCapped
  rw [if_pos (by simp)]
  cases xs with
  | nil => exact ⟨[], by simp⟩
  | cons x xs => exact ⟨xs ++ [p], by simp⟩

theorem backtrack_append_two (xs : List position) (p c : position) :
    backtrack (xs ++ [p, c]) =
      match p.testpos with
      | [] => none
      | _ :: t => some (xs ++ [⟨t, p.globpos⟩, ⟨t, p.globpos⟩]) := by
  have h1 : (xs ++ [p, c]).length - 2 = xs.length := by simp
  have h2 : ¬ (xs ++ [p, c]).length < 2 := by simp
  unfold backtrack
  rw [if_neg h2, h1]
  simp only [List.getElem?_append_right (Nat.le_refl _), Nat.sub_self, List.getElem?_cons_zero]
  cases p.testpos with
  | nil => rfl
  | cons b t =>
    simp only [List.set_append_right _ _ (Nat.le_refl _), Nat.sub_self, List.set_cons_zero]
    rw [setBack_append_two]

theorem getLast?_append_two (xs : List position) (p c : position) :
    (xs ++ [p, c]).getLast? = some c := by
  have : xs ++ [p, c] = (xs ++ [p]) ++ [c] := by simp
  rw [this, List.getLast?_concat]

theorem push_decreasing {ps : List position} {current cur : position}
    (hl : ps.getLast? = some current) (h : cur.globpos.length < current.globpos.length) :
    Prod.Lex (· < ·) (· < ·) (loopMeasure (pushCapped (setBack ps cur) cur)) (loopMeasure ps) := by
  by_cases h2 : 2 ≤ ps.length
  · obtain ⟨xs, p, c, rfl⟩ := exists_append_two h2
    rw [getLast?_append_two] at hl
    cases hl
    rw [setBack_append_two]
    obtain ⟨ys, hys⟩ := pushCapped_append_two xs p cur cur
    rw [hys, loopMeasure_append_two, loopMeasure_append_two]
    apply Prod.Lex.left
    simp only [max_self]
    omega
  · match ps, hl, h2 with
    | [c], hl, _ =>
      simp only [List.getLast?_singleton, Option.some.injEq] at hl
      subst hl
      have e : pushCapped (setBack [c] cur) cur = [] ++ [cur, cur] := by
        simp [pushCapped, setBack]
      rw [e, loopMeasure_append_two]
      apply Prod.Lex.left
      simp only [loopMeasure, List.reverse_cons, List.reverse_nil, List.nil_append, max_self]
      exact h
    | _ :: _ :: _, _, h2 => simp at h2

theorem backtrack_decreasing {ps ps' : List position} {cur : position}
    (h : backtrack (setBack ps cur) = some ps') :
    Prod.Lex (· < ·) (· < ·) (loopMeasure ps') (loopMeasure ps) := by
  by_cases h2 : 2 ≤ ps.length
  · obtain ⟨xs, p, c, rfl⟩ := exists_append_two h2
    rw [setBack_append_two, backtrack_append_two] at h
    split at h
    · cases h
    · rename_i b t ht
      cases h
      rw [loopMeasure_append_two, loopMeasure_append_two, ht]
      simp only [max_self, List.length_cons]
      rcases Nat.lt_or_ge p.globpos.length (max p.globpos.length c.globpos.length) with h3 | h3
      · exact Prod.Lex.left _ _ h3
      · have : max p.globpos.length c.globpos.length = p.globpos.length :=
          Nat.le_antisymm h3 (Nat.le_max_left _ _)
        rw [this]
        exact Prod.Lex.right _ (Nat.lt_succ_self _)
  · exfalso
    have : (setBack ps cur).length < 2 := by
      simp only [setBack, List.length_append, List.length_dropLast, List.length_singleton]
      omega
    simp [backtrack, this] at h

/-- The body of `while (true) { ... }` in `glob`, iterated until a `return`.
`positions` is the vector at the start of an iteration. -/
def loop (positions : List position) : Option Int :=
  match hc : positions.getLast? with
  | none => none
  | some current =>
    match hs : scan current.testpos current.globpos with
    | .ret0 => some 0
    | .push cur => loop (pushCapped (setBack positions cur) cur)
    | .done cur mtch =>
      if cur.testpos = [] then
        if skipStars cur.globpos = [] then some 0 else some (-1)
      else if positions.length = 1 then
        if mtch then some 0 else some (-1)
      else
        match hb : backtrack (setBack positions cur) with
        | none => none
        | some positions' => loop positions'
termination_by loopMeasure positions
decreasing_by
  · exact push_decreasing hc (scan_push_length hs)
  · exact backtrack_decreasing hb

/-- The function `int glob(std::string_view test, std::string_view glob)`:
`positions.push_back({test, glob});` followed by the loop. -/
def glob (test glob : List Byte) : Option Int :=
  loop [⟨test, glob⟩]

/-- The loop of `glob` cut off after `n` iterations: `none` when `n` iterations were not
enough, `some r` when the loop ended with `r`. -/
def loopFuel : Nat → List position → Option (Option Int)
  | 0, _ => none
  | n + 1, positions =>
    match positions.getLast? with
    | none => some none
    | some current =>
      match scan current.testpos current.globpos with
      | .ret0 => some (some 0)
      | .push cur => loopFuel n (pushCapped (setBack positions cur) cur)
      | .done cur mtch =>
        if cur.testpos = [] then
          if skipStars cur.globpos = [] then some (some 0) else some (some (-1))
        else if positions.length = 1 then
          if mtch then some (some 0) else some (some (-1))
        else
          match backtrack (setBack positions cur) with
          | none => some none
          | some positions' => loopFuel n positions'

/-- The scan of `glob` on `(s, p)` leaves its `for` loop through the loop condition with
subject bytes left over: the state in which the branch `positions.size() == 1` returns
the flag `match`. -/
def scanLeftover (s p : List Byte) : Bool :=
  match scan s p with
  | .done cur true => !cur.testpos.isEmpty
  | _ => false

/-- How one iteration of the body of `while (true) { ... }` ends. -/
inductive StepResult where
  /-- A `return` statement was reached (`some r`), or an access was out of bounds
  (`none`). -/
  | ret (r : Option Int) : StepResult
  /-- The iteration ended in `goto try_new_glob;` after a `*` was processed and the
  checkpoint pushed; `positions` is the vector at the start of the next iteration. -/
  | pushed (positions : List position) : StepResult
  /-- The iteration ended in the backtrack branch (`previous.testpos.remove_prefix(1);
  current = previous;`); `positions` is the vector at the start of the next iteration. -/
  | retried (positions : List position) : StepResult
deriving DecidableEq, Repr

/-- One iteration of the body of `while (true) { ... }` in `glob`, started with the vector
`positions`. -/
def step (positions : List position) : StepResult :=
  match positions.getLast? with
  | none => .ret none
  | some current =>
    match scan current.testpos current.globpos with
    | .ret0 => .ret (some 0)
    | .push cur => .pushed (pushCapped (setBack positions cur) cur)
    | .done cur mtch =>
      if cur.testpos = [] then
        if skipStars cur.globpos = [] then .ret (some 0) else .ret (some (-1))
      else if positions.length = 1 then
        if mtch then .ret (some 0) else .ret (some (-1))
      else
        match backtrack (setBack positions cur) with
        | none => .ret none
        | some positions' => .retried positions'

/-- The state of a call of `glob` at the start of an iteration of the outer loop: the
vector `positions`, the number of `*` processed by the scan so far (executions of
`positions.push_back(p)` inside the loop) and the number of backtrack retries so far
(executions of `previous.testpos.remove_prefix(1)`). -/
structure RunState where
  positions : List position
  stars : Nat
  retries : Nat
deriving DecidableEq, Repr

/-- One iteration of the outer loop on a run state; `none` when the iteration leaves
`glob`. -/
def advance (st : RunState) : Option RunState :=
  match step st.positions with
  | .ret _ => none
  | .pushed positions' => some ⟨positions', st.stars + 1, st.retries⟩
  | .retried positions' => some ⟨positions', st.stars, st.retries + 1⟩

/-- The state of the call `glob(test, glob)` at the start of iteration `k` of the outer
loop (counted from 0), `none` when the call has returned before. -/
def stateAt (test glob : List Byte) : Nat → Option RunState
  | 0 => some ⟨[⟨test, glob⟩], 0, 0⟩
  | k + 1 => (stateAt test glob k).bind advance

/-- The invariant of the outer loop: the vector is the initial one and nothing has
happened yet, or a `*` has been processed, both entries are equal and the retries so far
plus the subject bytes left at the checkpoint do not exceed the length of the subject. -/
def LoopInv (s p : List Byte) (st : RunState) : Prop :=
  st = ⟨[⟨s, p⟩], 0, 0⟩ ∨
    ∃ c, st.positions = [c, c] ∧ 0 < st.stars ∧ st.retries + c.testpos.length ≤ s.length

/-- The checkpoint consulted by the backtrack branch, `positions[positions.size() - 2]`,
when the vector has at least two entries. -/
def checkpoint (positions : List position) : Option position :=
  if positions.length < 2 then none else positions[positions.length - 2]?

/-- The access `v[0]` on a `std::string_view`, defined on a non-empty view only. -/
def front (v : List Byte) : Option Byte :=
  v.head?

/-- The call `v.remove_prefix(1)` on a `std::string_view`, defined on a non-empty view
only. -/
def removePrefix (v : List Byte) : Option (List Byte) :=
  match v with
  | [] => none
  | _ :: t => some t

theorem removePrefix_length {v t : List Byte} (h : removePrefix v = some t) :
    t.length < v.length := by
  cases v with
  | nil => cases h
  | cons b v => cases h; exact Nat.lt_succ_self _

/-- The loop `while (globpos.size() && globpos[0] == '*') globpos.remove_prefix(1);` with
every access checked: `none` when an access is out of bounds. -/
def skipStarsChecked (g : List Byte) : Option (List Byte) :=
  if g.length ≠ 0 then
    match front g with
    | none => none
    | some c =>
      if c = star then
        match h : removePrefix g with
        | none => none
        | some g' => skipStarsChecked g'
      else some g
  else some g
termination_by g.length
decreasing_by exact removePrefix_length h

/-- The `for` loop of `glob` with every `[0]` and every `remove_prefix(1)` checked: `none`
when an access is out of bounds. -/
def scanChecked (t g : List Byte) : Option ScanResult :=
  if t.length ≠ 0 ∧ g.length ≠ 0 then
    match front t with
    | none => none
    | some testchar =>
      match front g with
      | none => none
      | some globchar =>
        if globchar = qmark then
          match removePrefix t with
          | none => none
          | some t' =>
            match h : removePrefix g with
            | none => none
            | some g' => scanChecked t' g'
        else if globchar = star then
          match skipStarsChecked g with
          | none => none
          | some g' => if g' = [] then some .ret0 else some (.push ⟨t, g'⟩)
        else if globchar ≠ testchar then
          some (.done ⟨t, g⟩ false)
        else
          match removePrefix t with
          | none => none
          | some t' =>
            match h : removePrefix g with
            | none => none
            | some g' => scanChecked t' g'
  else some (.done ⟨t, g⟩ true)
termination_by g.length
decreasing_by
  · exact removePrefix_length h
  · exact removePrefix_length h

/-! ## Unfolding the loop -/

theorem loop_one (c : position) :
    loop [c] =
      match scan c.testpos c.globpos with
      | .ret0 => some 0
      | .push cur => loop [cur, cur]
      | .done cur m =>
        if cur.testpos = [] then
          if skipStars cur.globpos = [] then some 0 else some (-1)
        else if m then some 0 else some (-1) := by
  rw [loop]
  simp only [List.getLast?_singleton]
  split <;> rename_i h <;> simp [h, pushCapped, setBack]

theorem loop_two (p c : position) :
    loop [p, c] =
      match scan c.testpos c.globpos with
      | .ret0 => some 0
      | .push cur => loop [cur, cur]
      | .done cur _ =>
        if cur.testpos = [] then
          if skipStars cur.globpos = [] then some 0 else some (-1)
        else
          match p.testpos with
          | [] => none
          | _ :: t => loop [⟨t, p.globpos⟩, ⟨t, p.globpos⟩] := by
  rw [loop]
  have hb : ∀ cur, backtrack (setBack [p, c] cur) =
      match p.testpos with
      | [] => none
      | _ :: t => some [⟨t, p.globpos⟩, ⟨t, p.globpos⟩] := fun cur => by
    have := backtrack_append_two [] p cur
    simpa [setBack] using this
  split
  · rename_i h; simp at h
  · rename_i current h
    simp at h
    subst h
    split <;> rename_i h <;> simp only [h]
    · simp [pushCapped, setBack]
    · split
      · rfl
      · simp only [List.length_cons, List.length_nil]
        simp only [Nat.reduceAdd, OfNat.ofNat_ne_one, if_false]
        split <;> rename_i hh <;> rw [hb] at hh <;> split <;> rename_i h3 <;>
          simp only [h3, Option.some.injEq, reduceCtorEq] at hh <;>
          first
            | rfl
            | (subst hh; rfl)

theorem loop_eq_of_loopFuel {n : Nat} {positions : List position} {r : Option Int}
    (h : loopFuel n positions = some r) : loop positions = r := by
  induction n generalizing positions with
  | zero => simp [loopFuel] at h
  | succ n ih =>
    rw [loop]
    simp only [loopFuel] at h
    split <;> rename_i hc <;> simp only [hc] at h
    · cases h; rfl
    · split <;> rename_i hs <;> simp only [hs] at h
      · cases h; rfl
      · exact ih h
      · split
        · rename_i ht; simp only [ht, if_true] at h
          split <;> rename_i hg <;> simp only [hg, if_true, if_false] at h <;> cases h <;> rfl
        · rename_i ht; simp only [ht, if_false] at h
          split
          · rename_i hl; simp only [hl, if_true] at h
            split <;> rename_i hm <;> simp only [hm, if_true] at h <;> cases h <;> rfl
          · rename_i hl; simp only [hl, if_false] at h
            split <;> rename_i hb <;> simp only [hb] at h
            · cases h; rfl
            · exact ih h

theorem glob_eq_of_loopFuel (n : Nat) {s p : List Byte} {r : Option Int}
    (h : loopFuel n [⟨s, p⟩] = some r) : glob s p = r :=
  loop_eq_of_loopFuel h

/-! ## The reference semantics -/

theorem refMatch_nil_left (s : List Byte) : refMatch [] s = true ↔ s = [] := by
  simp [refMatch]

theorem refMatch_star_iff (p s : List Byte) :
    refMatch (star :: p) s = true ↔ ∃ u, u <:+ s ∧ refMatch p u = true := by
  have : ¬ star = qmark := by decide
  simp [refMatch, this, List.any_eq_true, List.mem_tails]

theorem refMatch_qmark_cons (p s : List Byte) (c : Byte) :
    refMatch (qmark :: p) (c :: s) = refMatch p s := by
  simp [refMatch]

theorem refMatch_qmark_nil (p : List Byte) : refMatch (qmark :: p) [] = false := by
  simp [refMatch]

theorem refMatch_lit_cons (b c : Byte) (p s : List Byte) (h1 : b ≠ qmark) (h2 : b ≠ star) :
    refMatch (b :: p) (c :: s) = (b == c && refMatch p s) := by
  simp [refMatch, h1, h2]

theorem refMatch_lit_nil (b : Byte) (p : List Byte) (h2 : b ≠ star) :
    refMatch (b :: p) [] = false := by
  by_cases h1 : b = qmark <;> simp [refMatch, h1, h2]

/-- A byte of the pattern other than `*` takes exactly one byte of the subject. -/
theorem refMatch_cons_elim {b : Byte} {p u : List Byte} (hb : b ≠ star)
    (h : refMatch (b :: p) u = true) : ∃ c u', u = c :: u' ∧ refMatch p u' = true := by
  cases u with
  | nil => rw [refMatch_lit_nil b p hb] at h; cases h
  | cons c u' =>
    refine ⟨c, u', rfl, ?_⟩
    by_cases h1 : b = qmark
    · subst h1; rwa [refMatch_qmark_cons] at h
    · rw [refMatch_lit_cons b c p u' h1 hb] at h
      simp only [Bool.and_eq_true] at h
      exact h.2

theorem refMatch_star_of_refMatch {p s : List Byte} (h : refMatch p s = true) :
    refMatch (star :: p) s = true :=
  (refMatch_star_iff p s).2 ⟨s, List.suffix_refl s, h⟩

theorem refMatch_star_mono {p s t : List Byte} (hs : s <:+ t)
    (h : refMatch (star :: p) s = true) : refMatch (star :: p) t = true := by
  obtain ⟨u, hu, hm⟩ := (refMatch_star_iff p s).1 h
  exact (refMatch_star_iff p t).2 ⟨u, hu.trans hs, hm⟩

theorem refMatch_star_star (p s : List Byte) :
    refMatch (star :: star :: p) s = refMatch (star :: p) s := by
  rw [Bool.eq_iff_iff]
  constructor
  · intro h
    obtain ⟨u, hu, hm⟩ := (refMatch_star_iff _ s).1 h
    exact refMatch_star_mono hu hm
  · exact refMatch_star_of_refMatch

theorem refMatch_star_skipStars (p s : List Byte) :
    refMatch (star :: skipStars p) s = refMatch (star :: p) s := by
  induction p with
  | nil => rfl
  | cons b p ih =>
    unfold skipStars
    split
    · rename_i hb; subst hb; rw [ih, refMatch_star_star]
    · rfl

theorem refMatch_star_cons (p : List Byte) (c : Byte) (s : List Byte) :
    refMatch (star :: p) (c :: s) = (refMatch p (c :: s) || refMatch (star :: p) s) := by
  rw [Bool.eq_iff_iff]
  simp only [Bool.or_eq_true, refMatch_star_iff, List.suffix_cons_iff]
  constructor
  · rintro ⟨u, hu | hu, hm⟩
    · subst hu; exact Or.inl hm
    · exact Or.inr ⟨u, hu, hm⟩
  · rintro (hm | ⟨u, hu, hm⟩)
    · exact ⟨_, Or.inl rfl, hm⟩
    · exact ⟨u, Or.inr hu, hm⟩

theorem refMatch_star_nil (p : List Byte) : refMatch (star :: p) [] = refMatch p [] := by
  have : ¬ star = qmark := by decide
  simp [refMatch, this]

theorem refMatch_nil_right (p : List Byte) : refMatch p [] = true ↔ skipStars p = [] := by
  induction p with
  | nil => simp [refMatch, skipStars]
  | cons b p ih =>
    by_cases hb : b = star
    · subst hb; rw [refMatch_star_nil, ih]; simp [skipStars]
    · rw [refMatch_lit_nil b p hb]; simp [skipStars, hb]

theorem nonStar_cons_of_ne {b : Byte} (hb : b ≠ star) (p : List Byte) :
    nonStar (b :: p) = nonStar p + 1 := by
  simp [nonStar, hb]

theorem nonStar_star_cons (p : List Byte) : nonStar (star :: p) = nonStar p := by
  simp [nonStar]

/-- A subject matched by a pattern has one byte for each byte of the pattern that is not `*`. -/
theorem nonStar_le_of_refMatch {p s : List Byte} (h : refMatch p s = true) :
    nonStar p ≤ s.length := by
  induction p generalizing s with
  | nil => simp [nonStar]
  | cons b p ih =>
    by_cases hb : b = star
    · subst hb
      obtain ⟨u, hu, hm⟩ := (refMatch_star_iff p s).1 h
      rw [nonStar_star_cons]
      exact (ih hm).trans hu.length_le
    · obtain ⟨c, u', rfl, hm⟩ := refMatch_cons_elim hb h
      rw [nonStar_cons_of_ne hb]
      have := ih hm
      simp only [List.length_cons]; omega

/-! ## The scan and the loop against the reference semantics -/

/-- Induction along the iterations of the `for` loop of `glob`: one case for each way an
iteration can go. -/
theorem scan_induction (motive : List Byte → List Byte → ScanResult → Prop)
    (nil_left : ∀ g, motive [] g (.done ⟨[], g⟩ true))
    (nil_right : ∀ tc t, motive (tc :: t) [] (.done ⟨tc :: t, []⟩ true))
    (any : ∀ tc t g, motive t g (scan t g) → motive (tc :: t) (qmark :: g) (scan t g))
    (star_ret : ∀ tc t g, skipStars g = [] → motive (tc :: t) (star :: g) .ret0)
    (star_push : ∀ tc t g, skipStars g ≠ [] →
      motive (tc :: t) (star :: g) (.push ⟨tc :: t, skipStars g⟩))
    (mismatch : ∀ tc t gc g, gc ≠ qmark → gc ≠ star → gc ≠ tc →
      motive (tc :: t) (gc :: g) (.done ⟨tc :: t, gc :: g⟩ false))
    (lit : ∀ tc t g, tc ≠ qmark → tc ≠ star → motive t g (scan t g) →
      motive (tc :: t) (tc :: g) (scan t g)) :
    ∀ t g, motive t g (scan t g) := by
  intro t g
  induction g generalizing t with
  | nil =>
    cases t with
    | nil => simpa [scan] using nil_left []
    | cons tc t => simpa [scan] using nil_right tc t
  | cons gc g ih =>
    cases t with
    | nil => simpa [scan] using nil_left (gc :: g)
    | cons tc t =>
      by_cases hq : gc = qmark
      · subst hq
        have e : scan (tc :: t) (qmark :: g) = scan t g := by simp [scan]
        rw [e]; exact any tc t g (ih t)
      · by_cases hs : gc = star
        · subst hs
          by_cases he : skipStars g = []
          · have e : scan (tc :: t) (star :: g) = .ret0 := by simp [scan, skipStars, hq, he]
            rw [e]; exact star_ret tc t g he
          · have e : scan (tc :: t) (star :: g) = .push ⟨tc :: t, skipStars g⟩ := by
              simp [scan, skipStars, hq, he]
            rw [e]; exact star_push tc t g he
        · by_cases hne : gc = tc
          · subst hne
            have e : scan (gc :: t) (gc :: g) = scan t g := by simp [scan, hq, hs]
            rw [e]; exact lit gc t g hq hs (ih t)
          · have e : scan (tc :: t) (gc :: g) = .done ⟨tc :: t, gc :: g⟩ false := by
              simp [scan, hq, hs, hne]
            rw [e]; exact mismatch tc t gc g hq hs hne

theorem refMatch_star_of_skipStars_nil {g : List Byte} (h : skipStars g = []) (s : List Byte) :
    refMatch (star :: g) s = true :=
  (refMatch_star_iff g s).2 ⟨[], List.nil_suffix, (refMatch_nil_right g).2 h⟩

/-- The `return 0;` inside the `for` loop is only reached when the pattern matches. -/
theorem scan_ret0_refMatch {t g : List Byte} (h : scan t g = .ret0) : refMatch g t = true := by
  revert h
  refine scan_induction (fun t g r => r = .ret0 → refMatch g t = true)
    ?_ ?_ ?_ ?_ ?_ ?_ ?_ t g
  · intro g h; cases h
  · intro tc t h; cases h
  · intro tc t g ih h; rw [refMatch_qmark_cons]; exact ih h
  · intro tc t g he _; exact refMatch_star_of_skipStars_nil he _
  · intro tc t g _ h; cases h
  · intro tc t gc g _ _ _ h; cases h
  · intro tc t g hq hs ih h
    rw [refMatch_lit_cons tc tc g t hq hs]; simp [ih h]

/-- When the scan reaches a `*` that is not the end of the pattern, the pattern matches the
subject iff the rest of the pattern (after the run of `*`) matches a suffix of the rest
of the subject. -/
theorem scan_push_refMatch {t g : List Byte} {cur : position} (h : scan t g = .push cur) :
    refMatch g t = refMatch (star :: cur.globpos) cur.testpos := by
  revert h
  refine scan_induction
    (fun t g r => r = .push cur → refMatch g t = refMatch (star :: cur.globpos) cur.testpos)
    ?_ ?_ ?_ ?_ ?_ ?_ ?_ t g
  · intro g h; cases h
  · intro tc t h; cases h
  · intro tc t g ih h; rw [refMatch_qmark_cons]; exact ih h
  · intro tc t g _ h; cases h
  · intro tc t g _ h; cases h; exact (refMatch_star_skipStars g _).symm
  · intro tc t gc g _ _ _ h; cases h
  · intro tc t g hq hs ih h
    rw [refMatch_lit_cons tc tc g t hq hs, ← ih h]; simp

/-- No suffix of the subject is matched by the pattern unless the rest of the pattern,
after the first run of `*`, matches a suffix of the rest of the subject. -/
theorem scan_push_suffix {t g : List Byte} {cur : position} (h : scan t g = .push cur)
    {u : List Byte} (hu : u <:+ t) (hm : refMatch g u = true) :
    refMatch (star :: cur.globpos) cur.testpos = true := by
  revert h u
  refine scan_induction
    (fun t g r => r = .push cur → ∀ {u : List Byte}, u <:+ t → refMatch g u = true →
      refMatch (star :: cur.globpos) cur.testpos = true)
    ?_ ?_ ?_ ?_ ?_ ?_ ?_ t g
  · intro g h; cases h
  · intro tc t h; cases h
  · intro tc t g ih h u hu hm
    obtain ⟨c, u', rfl, hm'⟩ := refMatch_cons_elim (by decide) hm
    refine ih h ?_ hm'
    rcases List.suffix_cons_iff.1 hu with e | e
    · cases e; exact List.suffix_refl _
    · exact (List.suffix_cons c u').trans e
  · intro tc t g _ h; cases h
  · intro tc t g _ h u hu hm
    cases h
    rw [refMatch_star_skipStars]
    exact refMatch_star_mono hu hm
  · intro tc t gc g _ _ _ h; cases h
  · intro tc t g hq hs ih h u hu hm
    obtain ⟨c, u', rfl, hm'⟩ := refMatch_cons_elim hs hm
    refine ih h ?_ hm'
    rcases List.suffix_cons_iff.1 hu with e | e
    · cases e; exact List.suffix_refl _
    · exact (List.suffix_cons c u').trans e

/-- With the checkpoint at the state the scan started from, a later `*` replaces it
without losing a match. -/
theorem scan_push_star {t g : List Byte} {cur : position} (h : scan t g = .push cur) :
    refMatch (star :: g) t = refMatch (star :: cur.globpos) cur.testpos := by
  rw [Bool.eq_iff_iff]
  constructor
  · intro hm
    obtain ⟨u, hu, hm'⟩ := (refMatch_star_iff g t).1 hm
    exact scan_push_suffix h hu hm'
  · intro hm
    rw [← scan_push_refMatch h] at hm
    exact refMatch_star_of_refMatch hm

/-- When the scan uses up the subject, the pattern matches iff what is left of it is a run
of `*`. -/
theorem scan_done_nil_refMatch {t g : List Byte} {cur : position} {m : Bool}
    (h : scan t g = .done cur m) (ht : cur.testpos = []) :
    refMatch g t = true ↔ skipStars cur.globpos = [] := by
  revert h
  refine scan_induction
    (fun t g r => r = .done cur m → (refMatch g t = true ↔ skipStars cur.globpos = []))
    ?_ ?_ ?_ ?_ ?_ ?_ ?_ t g
  · intro g h; cases h; exact refMatch_nil_right g
  · intro tc t h; cases h; cases ht
  · intro tc t g ih h; rw [refMatch_qmark_cons]; exact ih h
  · intro tc t g _ h; cases h
  · intro tc t g _ h; cases h
  · intro tc t gc g _ _ _ h; cases h; cases ht
  · intro tc t g hq hs ih h
    rw [refMatch_lit_cons tc tc g t hq hs, ← ih h]; simp

/-- The scan consumes one subject byte for each pattern byte, none of them a `*`. -/
theorem scan_done_nonStar {t g : List Byte} {cur : position} {m : Bool}
    (h : scan t g = .done cur m) :
    nonStar g + cur.testpos.length = t.length + nonStar cur.globpos := by
  revert h
  refine scan_induction
    (fun t g r => r = .done cur m →
      nonStar g + cur.testpos.length = t.length + nonStar cur.globpos)
    ?_ ?_ ?_ ?_ ?_ ?_ ?_ t g
  · intro g h; cases h; simp
  · intro tc t h; cases h; simp [Nat.add_comm]
  · intro tc t g ih h
    have := ih h
    rw [nonStar_cons_of_ne (by decide)]; simp only [List.length_cons]; omega
  · intro tc t g _ h; cases h
  · intro tc t g _ h; cases h
  · intro tc t gc g _ _ _ h; cases h; simp [Nat.add_comm]
  · intro tc t g hq hs ih h
    have := ih h
    rw [nonStar_cons_of_ne hs]; simp only [List.length_cons]; omega

theorem nonStar_pos_of_skipStars {g : List Byte} (h : skipStars g ≠ []) : 0 < nonStar g := by
  induction g with
  | nil => simp [skipStars] at h
  | cons b g ih =>
    by_cases hb : b = star
    · subst hb
      rw [nonStar_star_cons]
      exact ih (by simpa [skipStars] using h)
    · rw [nonStar_cons_of_ne hb]; omega

/-- When the scan leaves subject bytes over, the pattern does not match the subject the
scan started from. -/
theorem scan_done_cons_refMatch {t g : List Byte} {cur : position} {m : Bool}
    (h : scan t g = .done cur m) (ht : cur.testpos ≠ []) : refMatch g t = false := by
  revert h
  refine scan_induction (fun t g r => r = .done cur m → refMatch g t = false)
    ?_ ?_ ?_ ?_ ?_ ?_ ?_ t g
  · intro g h; cases h; exact absurd rfl ht
  · intro tc t h; simp [refMatch]
  · intro tc t g ih h; rw [refMatch_qmark_cons]; exact ih h
  · intro tc t g _ h; cases h
  · intro tc t g _ h; cases h
  · intro tc t gc g hq hs hne h
    rw [refMatch_lit_cons gc tc g t hq hs]; simp [hne]
  · intro tc t g hq hs ih h
    rw [refMatch_lit_cons tc tc g t hq hs, ih h]; simp

theorem scan_done_testpos_suffix {t g : List Byte} {cur : position} {m : Bool}
    (h : scan t g = .done cur m) : cur.testpos <:+ t := by
  revert h
  refine scan_induction (fun t g r => r = .done cur m → cur.testpos <:+ t)
    ?_ ?_ ?_ ?_ ?_ ?_ ?_ t g
  · intro g h; cases h; exact List.suffix_refl _
  · intro tc t h; cases h; exact List.suffix_refl _
  · intro tc t g ih h; exact (ih h).trans (List.suffix_cons tc t)
  · intro tc t g _ h; cases h
  · intro tc t g _ h; cases h
  · intro tc t gc g _ _ _ h; cases h; exact List.suffix_refl _
  · intro tc t g _ _ ih h; exact (ih h).trans (List.suffix_cons tc t)

theorem loop_two_spec_aux (n : Nat) : ∀ g : List Byte, g.length = n → ∀ t : List Byte,
    loop [⟨t, g⟩, ⟨t, g⟩] = some (if refMatch (star :: g) t = true then 0 else -1) := by
  induction n using Nat.strong_induction_on with
  | _ n ihg =>
    intro g hn t
    induction t with
    | nil =>
      rw [loop_two]
      have e : scan [] g = .done ⟨[], g⟩ true := by cases g <;> simp [scan]
      simp only [e, if_true]
      rw [refMatch_star_nil]
      by_cases hs : skipStars g = []
      · simp [hs, (refMatch_nil_right g).2 hs]
      · have : refMatch g [] = false := by
          rw [Bool.eq_false_iff]; exact fun h => hs ((refMatch_nil_right g).1 h)
        simp [hs, this]
    | cons x t iht =>
      rw [loop_two]
      split
      · rename_i hs
        rw [refMatch_star_of_refMatch (scan_ret0_refMatch hs)]; rfl
      · rename_i cur hs
        have hl := scan_push_length hs
        have := ihg cur.globpos.length (by simpa [← hn] using hl) cur.globpos rfl cur.testpos
        rw [this, scan_push_star hs]
      · rename_i cur m hs
        simp only at hs
        split
        · rename_i ht
          by_cases hk : skipStars cur.globpos = []
          · rw [if_pos hk,
              refMatch_star_of_refMatch ((scan_done_nil_refMatch hs ht).2 hk)]; rfl
          · rw [if_neg hk]
            have hlen := scan_done_nonStar hs
            have hpos := nonStar_pos_of_skipStars hk
            have : refMatch (star :: g) (x :: t) = false := by
              rw [Bool.eq_false_iff]
              intro hm
              obtain ⟨u, hu, hm'⟩ := (refMatch_star_iff _ _).1 hm
              have h1 := nonStar_le_of_refMatch hm'
              have h2 := hu.length_le
              rw [ht] at hlen
              simp only [List.length_nil] at hlen
              omega
            rw [this]; rfl
        · rename_i ht
          simp only
          rw [iht, refMatch_star_cons, scan_done_cons_refMatch hs ht]
          simp

/-- The correctness of the loop once a checkpoint exists: started with both entries equal
to `(t, g)`, it returns 0 when `g` matches some suffix of `t`, and -1 otherwise. -/
theorem loop_two_spec (g t : List Byte) :
    loop [⟨t, g⟩, ⟨t, g⟩] = some (if refMatch (star :: g) t = true then 0 else -1) :=
  loop_two_spec_aux g.length g rfl t

/-- What `glob` returns, for every subject and pattern: 0 when the pattern matches the
subject or the scan ends, before any `*`, through the loop condition with subject
bytes left over; -1 otherwise. -/
theorem glob_spec (s p : List Byte) :
    glob s p = some (if (refMatch p s || scanLeftover s p) = true then 0 else -1) := by
  unfold glob
  rw [loop_one]
  split
  · rename_i hs
    simp [scan_ret0_refMatch hs]
  · rename_i cur hs
    simp only at hs
    have hl : scanLeftover s p = false := by unfold scanLeftover; rw [hs]
    rw [loop_two_spec, scan_push_refMatch hs, hl, Bool.or_false]
  · rename_i cur m hs
    simp only at hs
    by_cases ht : cur.testpos = []
    · have hl : scanLeftover s p = false := by
        unfold scanLeftover; rw [hs]; cases m <;> simp [ht]
      rw [if_pos ht, hl, Bool.or_false]
      by_cases hk : skipStars cur.globpos = []
      · rw [if_pos hk, (scan_done_nil_refMatch hs ht).2 hk]; rfl
      · rw [if_neg hk, if_neg (fun h => hk ((scan_done_nil_refMatch hs ht).1 h))]
    · have hl : scanLeftover s p = m := by
        unfold scanLeftover; rw [hs]
        cases hc : cur.testpos with
        | nil => exact absurd hc ht
        | cons _ _ => cases m <;> simp [hc]
      rw [if_neg ht, scan_done_cons_refMatch hs ht, Bool.false_or, hl]
      cases m <;> rfl

/-- The scan has subject bytes left over only when the pattern has no `*`. -/
theorem scanLeftover_no_star {s p : List Byte} (h : scanLeftover s p = true) : star ∉ p := by
  unfold scanLeftover at h
  revert h
  refine scan_induction
    (fun t g r => (match r with
        | .done cur true => !cur.testpos.isEmpty
        | _ => false) = true → star ∉ g)
    ?_ ?_ ?_ ?_ ?_ ?_ ?_ s p
  · intro g h; simp at h
  · intro tc t _; simp
  · intro tc t g ih h
    have := ih h
    simp only [List.mem_cons, not_or]
    exact ⟨by decide, this⟩
  · intro tc t g _ h; simp at h
  · intro tc t g _ h; simp at h
  · intro tc t gc g _ _ _ h; simp at h
  · intro tc t g _ hs ih h
    have := ih h
    simp only [List.mem_cons, not_or]
    exact ⟨fun e => hs e.symm, this⟩

/-- The scan has subject bytes left over only when the subject is longer than the pattern. -/
theorem scanLeftover_length {s p : List Byte} (h : scanLeftover s p = true) :
    p.length < s.length := by
  unfold scanLeftover at h
  revert h
  refine scan_induction
    (fun t g r => (match r with
        | .done cur true => !cur.testpos.isEmpty
        | _ => false) = true → g.length < t.length)
    ?_ ?_ ?_ ?_ ?_ ?_ ?_ s p
  · intro g h; simp at h
  · intro tc t _; simp
  · intro tc t g ih h
    have := ih h
    simp only [List.length_cons]; omega
  · intro tc t g _ h; simp at h
  · intro tc t g _ h; simp at h
  · intro tc t gc g _ _ _ h; simp at h
  · intro tc t g _ _ ih h
    have := ih h
    simp only [List.length_cons]; omega

theorem glob_of_refMatch {s p : List Byte} (h : refMatch p s = true) : glob s p = some 0 := by
  rw [glob_spec, h]; rfl

theorem glob_of_star_mem {s p : List Byte} (h : star ∈ p) :
    glob s p = some (if refMatch p s = true then 0 else -1) := by
  have : scanLeftover s p = false := by
    rw [Bool.eq_false_iff]; exact fun hl => scanLeftover_no_star hl h
  rw [glob_spec, this, Bool.or_false]

theorem glob_of_length_le {s p : List Byte} (h : s.length ≤ p.length) :
    glob s p = some (if refMatch p s = true then 0 else -1) := by
  have : scanLeftover s p = false := by
    rw [Bool.eq_false_iff]; intro hl
    have := scanLeftover_length hl
    omega
  rw [glob_spec, this, Bool.or_false]

theorem some_ite_eq_zero_iff (c : Prop) [Decidable c] :
    (some (if c then (0 : Int) else -1) = some 0) ↔ c := by
  by_cases h : c <;> simp [h]

theorem some_ite_eq_neg_one_iff (c : Prop) [Decidable c] :
    (some (if c then (0 : Int) else -1) = some (-1)) ↔ ¬ c := by
  by_cases h : c <;> simp [h]

/-- A literal prefix `w` of a pattern (no `*`, no `?`) matches exactly the prefix `w` of the
subject. -/
theorem refMatch_literal_append {w : List Byte} (hs : star ∉ w) (hq : qmark ∉ w)
    (q u : List Byte) :
    refMatch (w ++ q) u = true ↔ ∃ v, u = w ++ v ∧ refMatch q v = true := by
  induction w generalizing u with
  | nil => simp
  | cons b w ih =>
    simp only [List.mem_cons, not_or] at hs hq
    have hb1 : b ≠ qmark := fun e => hq.1 e.symm
    have hb2 : b ≠ star := fun e => hs.1 e.symm
    cases u with
    | nil => simp [refMatch_lit_nil b (w ++ q) hb2]
    | cons c u =>
      rw [List.cons_append, refMatch_lit_cons b c (w ++ q) u hb1 hb2]
      simp only [Bool.and_eq_true, beq_iff_eq, ih hs.2 hq.2, List.cons_append,
        List.cons.injEq]
      constructor
      · rintro ⟨rfl, v, rfl, hv⟩; exact ⟨v, ⟨rfl, rfl⟩, hv⟩
      · rintro ⟨v, ⟨rfl, rfl⟩, hv⟩; exact ⟨rfl, v, rfl, hv⟩

theorem refMatch_literal {w : List Byte} (hs : star ∉ w) (hq : qmark ∉ w) (u : List Byte) :
    refMatch w u = true ↔ u = w := by
  have := refMatch_literal_append hs hq [] u
  simp only [List.append_nil, refMatch_nil_left] at this
  rw [this]
  constructor
  · rintro ⟨v, rfl, rfl⟩; simp
  · rintro rfl; exact ⟨[], by simp, rfl⟩

theorem refMatch_single_star (s : List Byte) : refMatch [star] s = true :=
  refMatch_star_of_skipStars_nil (by simp [skipStars]) s

theorem refMatch_substring {w : List Byte} (hs : star ∉ w) (hq : qmark ∉ w) (s : List Byte) :
    refMatch (star :: (w ++ [star])) s = true ↔ w <:+: s := by
  rw [refMatch_star_iff, List.infix_iff_prefix_suffix]
  constructor
  · rintro ⟨u, hu, hm⟩
    obtain ⟨v, rfl, _⟩ := (refMatch_literal_append hs hq [star] u).1 hm
    exact ⟨w ++ v, List.prefix_append w v, hu⟩
  · rintro ⟨u, ⟨v, rfl⟩, hu⟩
    exact ⟨w ++ v, hu, (refMatch_literal_append hs hq [star] _).2 ⟨v, rfl, refMatch_single_star v⟩⟩

theorem refMatch_prefix_suffix {a b : List Byte} (has : star ∉ a) (haq : qmark ∉ a)
    (hbs : star ∉ b) (hbq : qmark ∉ b) (s : List Byte) :
    refMatch (a ++ star :: b) s = true ↔
      a <+: s ∧ b <:+ s ∧ a.length + b.length ≤ s.length := by
  rw [refMatch_literal_append has haq]
  constructor
  · rintro ⟨v, rfl, hm⟩
    obtain ⟨u, hu, hm'⟩ := (refMatch_star_iff b v).1 hm
    rw [refMatch_literal hbs hbq] at hm'
    subst hm'
    refine ⟨List.prefix_append a v, hu.trans (List.suffix_append a v), ?_⟩
    have := hu.length_le
    simp only [List.length_append]; omega
  · rintro ⟨⟨v, rfl⟩, hb, hl⟩
    refine ⟨v, rfl, (refMatch_star_iff b v).2 ⟨b, ?_, (refMatch_literal hbs hbq b).2 rfl⟩⟩
    refine List.suffix_of_suffix_length_le hb (List.suffix_append a v) ?_
    simp only [List.length_append] at hl; omega

theorem refMatch_self (s : List Byte) : refMatch s s = true := by
  induction s with
  | nil => rfl
  | cons b s ih =>
    by_cases hq : b = qmark
    · subst hq; rw [refMatch_qmark_cons]; exact ih
    · by_cases hs : b = star
      · subst hs
        exact (refMatch_star_iff s _).2 ⟨s, List.suffix_cons _ s, ih⟩
      · rw [refMatch_lit_cons b b s s hq hs, ih]; simp

theorem skipStars_replicate (n : Nat) : skipStars (List.replicate n star) = [] := by
  induction n with
  | zero => rfl
  | succ n ih => simp [List.replicate_succ, skipStars, ih]

theorem skipStars_eq_nil_iff (p : List Byte) : skipStars p = [] ↔ ∀ b ∈ p, b = star := by
  induction p with
  | nil => simp [skipStars]
  | cons b p ih =>
    by_cases hb : b = star
    · subst hb; simp [skipStars, ih]
    · simp [skipStars, hb]

/-- A `*`-free pattern as long as the subject matches iff it matches byte for byte. -/
theorem refMatch_pointwise {p : List Byte} (hs : star ∉ p) (s : List Byte)
    (hl : p.length = s.length) :
    refMatch p s = true ↔ ∀ i, i < p.length → p[i]? = some qmark ∨ p[i]? = s[i]? := by
  induction p generalizing s with
  | nil =>
    cases s with
    | nil => simp [refMatch]
    | cons c s => simp at hl
  | cons b p ih =>
    cases s with
    | nil => simp at hl
    | cons c s =>
      simp only [List.mem_cons, not_or] at hs
      have hb : b ≠ star := fun e => hs.1 e.symm
      simp only [List.length_cons, Nat.add_right_cancel_iff] at hl
      have key : refMatch (b :: p) (c :: s) = true ↔
          (b = qmark ∨ b = c) ∧ refMatch p s = true := by
        by_cases hq : b = qmark
        · subst hq; rw [refMatch_qmark_cons]; simp
        · rw [refMatch_lit_cons b c p s hq hb]; simp [hq]
      rw [key, ih hs.2 s hl]
      constructor
      · rintro ⟨h0, hi⟩ i hlt
        cases i with
        | zero => simpa using h0
        | succ i =>
          simp only [List.getElem?_cons_succ]
          exact hi i (by simpa using hlt)
      · intro h
        refine ⟨by simpa using h 0 (by simp), fun i hlt => ?_⟩
        have := h (i + 1) (by simpa using hlt)
        simpa only [List.getElem?_cons_succ] using this

/-- The pattern after a literal or `?` prefix is only used through what it matches. -/
theorem refMatch_append_congr (a : List Byte) {q q' : List Byte}
    (h : ∀ u, refMatch q u = refMatch q' u) (s : List Byte) :
    refMatch (a ++ q) s = refMatch (a ++ q') s := by
  induction a generalizing s with
  | nil => exact h s
  | cons b a ih =>
    by_cases hb : b = star
    · subst hb
      rw [Bool.eq_iff_iff]
      simp only [List.cons_append, refMatch_star_iff, ih]
    · cases s with
      | nil => simp only [List.cons_append, refMatch_lit_nil b _ hb]
      | cons c s =>
        by_cases hq : b = qmark
        · subst hq; simp only [List.cons_append, refMatch_qmark_cons, ih]
        · simp only [List.cons_append, refMatch_lit_cons b c _ s hq hb, ih]

theorem refMatch_replicate_star (n : Nat) (b u : List Byte) :
    refMatch (List.replicate (n + 1) star ++ b) u = refMatch (star :: b) u := by
  induction n with
  | zero => rfl
  | succ n ih =>
    rw [List.replicate_succ, List.cons_append, ← ih, List.replicate_succ, List.cons_append,
      refMatch_star_star]

/-- A match of `p` on `s` extends to a match of `p` followed by `*` on `s` followed by
anything. -/
theorem refMatch_append_star {p s : List Byte} (h : refMatch p s = true) (t : List Byte) :
    refMatch (p ++ [star]) (s ++ t) = true := by
  induction p generalizing s with
  | nil =>
    rw [refMatch_nil_left] at h
    subst h
    exact refMatch_single_star _
  | cons b p ih =>
    by_cases hb : b = star
    · subst hb
      obtain ⟨u, ⟨v, rfl⟩, hm⟩ := (refMatch_star_iff p s).1 h
      rw [List.cons_append, refMatch_star_iff]
      exact ⟨u ++ t, ⟨v, by simp⟩, ih hm⟩
    · obtain ⟨c, u', rfl, hm⟩ := refMatch_cons_elim hb h
      by_cases hq : b = qmark
      · subst hq
        rw [List.cons_append, List.cons_append, refMatch_qmark_cons]
        exact ih hm
      · rw [refMatch_lit_cons b c p u' hq hb] at h
        simp only [Bool.and_eq_true, beq_iff_eq] at h
        rw [List.cons_append, List.cons_append, refMatch_lit_cons b c _ _ hq hb, ih hm]
        simp [h.1]

/-- When the scan leaves subject bytes over before any `*`, the pattern matches a proper
prefix of the subject. -/
theorem scanLeftover_prefix {s p : List Byte} (h : scanLeftover s p = true) :
    ∃ s1 s2, s = s1 ++ s2 ∧ s2 ≠ [] ∧ refMatch p s1 = true := by
  unfold scanLeftover at h
  revert h
  refine scan_induction
    (fun t g r => (match r with
        | .done cur true => !cur.testpos.isEmpty
        | _ => false) = true → ∃ s1 s2, t = s1 ++ s2 ∧ s2 ≠ [] ∧ refMatch g s1 = true)
    ?_ ?_ ?_ ?_ ?_ ?_ ?_ s p
  · intro g h; simp at h
  · intro tc t _; exact ⟨[], tc :: t, rfl, by simp, rfl⟩
  · intro tc t g ih h
    obtain ⟨s1, s2, rfl, h2, hm⟩ := ih h
    exact ⟨tc :: s1, s2, rfl, h2, by rw [refMatch_qmark_cons]; exact hm⟩
  · intro tc t g _ h; simp at h
  · intro tc t g _ h; simp at h
  · intro tc t gc g _ _ _ h; simp at h
  · intro tc t g hq hs ih h
    obtain ⟨s1, s2, rfl, h2, hm⟩ := ih h
    exact ⟨tc :: s1, s2, rfl, h2, by rw [refMatch_lit_cons tc tc g s1 hq hs, hm]; simp⟩

/-- For a pattern without `*`, a proper prefix match is what makes the scan stop with
subject bytes left over. -/
theorem scanLeftover_of_prefix {p : List Byte} (hs : star ∉ p) {s1 s2 : List Byte}
    (h2 : s2 ≠ []) (hm : refMatch p s1 = true) : scanLeftover (s1 ++ s2) p = true := by
  induction p generalizing s1 with
  | nil =>
    rw [refMatch_nil_left] at hm
    subst hm
    cases s2 with
    | nil => exact absurd rfl h2
    | cons c s2 => simp [scanLeftover, scan]
  | cons b p ih =>
    simp only [List.mem_cons, not_or] at hs
    have hb : b ≠ star := fun e => hs.1 e.symm
    obtain ⟨c, u', rfl, hm'⟩ := refMatch_cons_elim hb hm
    have := ih hs.2 hm'
    by_cases hq : b = qmark
    · subst hq
      simpa [scanLeftover, scan] using this
    · rw [refMatch_lit_cons b c p u' hq hb] at hm
      simp only [Bool.and_eq_true, beq_iff_eq] at hm
      obtain ⟨rfl, _⟩ := hm
      simpa [scanLeftover, scan, hq, hb] using this

theorem refMatch_star_free_length {p s : List Byte} (hs : star ∉ p)
    (h : refMatch p s = true) : p.length = s.length := by
  induction p generalizing s with
  | nil => rw [refMatch_nil_left] at h; subst h; rfl
  | cons b p ih =>
    simp only [List.mem_cons, not_or] at hs
    obtain ⟨c, u', rfl, hm⟩ := refMatch_cons_elim (fun e => hs.1 e.symm) h
    simp only [List.length_cons, ih hs.2 hm]

theorem refMatch_append_star_elim {p s : List Byte} (h : refMatch (p ++ [star]) s = true) :
    ∃ s1 s2, s = s1 ++ s2 ∧ refMatch p s1 = true := by
  induction p generalizing s with
  | nil => exact ⟨[], s, rfl, rfl⟩
  | cons b p ih =>
    by_cases hb : b = star
    · subst hb
      rw [List.cons_append, refMatch_star_iff] at h
      obtain ⟨u, ⟨v, rfl⟩, hm⟩ := h
      obtain ⟨s1, s2, rfl, hm'⟩ := ih hm
      refine ⟨v ++ s1, s2, by simp, ?_⟩
      exact (refMatch_star_iff p _).2 ⟨s1, List.suffix_append v s1, hm'⟩
    · rw [List.cons_append] at h
      obtain ⟨c, u', rfl, hm⟩ := refMatch_cons_elim hb h
      obtain ⟨s1, s2, rfl, hm'⟩ := ih hm
      refine ⟨c :: s1, s2, rfl, ?_⟩
      by_cases hq : b = qmark
      · subst hq; rw [refMatch_qmark_cons]; exact hm'
      · rw [refMatch_lit_cons b c _ _ hq hb] at h
        simp only [Bool.and_eq_true, beq_iff_eq] at h
        rw [refMatch_lit_cons b c _ _ hq hb, hm']
        simp [h.1]

/-- For a pattern without `*`, what `glob` accepts is what the pattern followed by `*`
matches. -/
theorem refMatch_or_scanLeftover {p : List Byte} (hs : star ∉ p) (s : List Byte) :
    (refMatch p s || scanLeftover s p) = refMatch (p ++ [star]) s := by
  rw [Bool.eq_iff_iff, Bool.or_eq_true]
  constructor
  · rintro (h | h)
    · simpa using refMatch_append_star h []
    · obtain ⟨s1, s2, rfl, _, hm⟩ := scanLeftover_prefix h
      exact refMatch_append_star hm s2
  · intro h
    obtain ⟨s1, s2, rfl, hm⟩ := refMatch_append_star_elim h
    cases s2 with
    | nil => left; simpa using hm
    | cons c s2 => right; exact scanLeftover_of_prefix hs (by simp) hm

/-- A `*`-free pattern followed by `*` matches iff it matches the subject byte for byte
on its own length. -/
theorem refMatch_star_free_prefix {p : List Byte} (hs : star ∉ p) (s : List Byte) :
    refMatch (p ++ [star]) s = true ↔
      p.length ≤ s.length ∧ ∀ i, i < p.length → p[i]? = some qmark ∨ p[i]? = s[i]? := by
  induction p generalizing s with
  | nil => simp [refMatch_single_star]
  | cons b p ih =>
    simp only [List.mem_cons, not_or] at hs
    have hb : b ≠ star := fun e => hs.1 e.symm
    cases s with
    | nil => simp [refMatch_lit_nil b _ hb]
    | cons c s =>
      have key : refMatch (b :: p ++ [star]) (c :: s) = true ↔
          (b = qmark ∨ b = c) ∧ refMatch (p ++ [star]) s = true := by
        by_cases hq : b = qmark
        · subst hq; rw [List.cons_append, refMatch_qmark_cons]; simp
        · rw [List.cons_append, refMatch_lit_cons b c _ s hq hb]; simp [hq]
      rw [key, ih hs.2 s]
      simp only [List.length_cons, Nat.add_le_add_iff_right]
      constructor
      · rintro ⟨h0, hl, hi⟩
        refine ⟨hl, fun i hlt => ?_⟩
        cases i with
        | zero => simpa using h0
        | succ i =>
          simp only [List.getElem?_cons_succ]
          exact hi i (by omega)
      · rintro ⟨hl, h⟩
        refine ⟨by simpa using h 0 (by omega), hl, fun i hlt => ?_⟩
        have := h (i + 1) (by omega)
        simpa only [List.getElem?_cons_succ] using this

/-! ## The loop as an iteration of `step` -/

theorem loop_eq_step (positions : List position) :
    loop positions =
      match step positions with
      | .ret r => r
      | .pushed positions' => loop positions'
      | .retried positions' => loop positions' := by
  rw [loop]
  unfold step
  split <;> rename_i hc <;> simp only [hc]
  split <;> rename_i hs <;> simp only [hs]
  split
  · split <;> rfl
  · split
    · split <;> rfl
    · split <;> rename_i hb <;> simp only [hb]

theorem loopFuel_succ (n : Nat) (positions : List position) :
    loopFuel (n + 1) positions =
      match step positions with
      | .ret r => some r
      | .pushed positions' => loopFuel n positions'
      | .retried positions' => loopFuel n positions' := by
  rw [loopFuel]
  unfold step
  split
  · rfl
  · split
    · rfl
    · rfl
    · split
      · split <;> rfl
      · split
        · split <;> rfl
        · split <;> rfl

/-- Every iteration that does not return lowers the termination measure. -/
theorem step_decreasing {ps ps' : List position}
    (h : step ps = .pushed ps' ∨ step ps = .retried ps') :
    Prod.Lex (· < ·) (· < ·) (loopMeasure ps') (loopMeasure ps) := by
  unfold step at h
  split at h
  · simp at h
  · rename_i current hc
    split at h
    · simp at h
    · rename_i cur hs
      simp only [StepResult.pushed.injEq, reduceCtorEq, or_false] at h
      subst h
      exact push_decreasing hc (scan_push_length hs)
    · rename_i cur m hs
      split at h
      · split at h <;> simp at h
      · split at h
        · split at h <;> simp at h
        · split at h
          · simp at h
          · rename_i positions' hb
            simp only [reduceCtorEq, StepResult.retried.injEq, false_or] at h
            subst h
            exact backtrack_decreasing hb

theorem loopMeasure_wf :
    WellFounded (InvImage (Prod.Lex (· < ·) (· < ·)) loopMeasure) :=
  InvImage.wf loopMeasure (WellFounded.prod_lex Nat.lt_wfRel.wf Nat.lt_wfRel.wf)

/-- Enough iterations reach a `return`: the loop cut off after `n` iterations gives the
result of the loop. -/
theorem exists_loopFuel (positions : List position) :
    ∃ n, loopFuel n positions = some (loop positions) := by
  induction positions using loopMeasure_wf.induction with
  | _ ps ih =>
    rw [loop_eq_step]
    cases hs : step ps with
    | ret r => exact ⟨1, by rw [loopFuel_succ, hs]⟩
    | pushed ps' =>
      obtain ⟨n, hn⟩ := ih ps' (step_decreasing (Or.inl hs))
      exact ⟨n + 1, by rw [loopFuel_succ, hs]; exact hn⟩
    | retried ps' =>
      obtain ⟨n, hn⟩ := ih ps' (step_decreasing (Or.inr hs))
      exact ⟨n + 1, by rw [loopFuel_succ, hs]; exact hn⟩

theorem step_one (c : position) :
    step [c] =
      match scan c.testpos c.globpos with
      | .ret0 => .ret (some 0)
      | .push cur => .pushed [cur, cur]
      | .done cur m =>
        if cur.testpos = [] then
          if skipStars cur.globpos = [] then .ret (some 0) else .ret (some (-1))
        else if m then .ret (some 0) else .ret (some (-1)) := by
  unfold step
  simp only [List.getLast?_singleton]
  split
  · rfl
  · simp [pushCapped, setBack]
  · simp

theorem step_two (p c : position) :
    step [p, c] =
      match scan c.testpos c.globpos with
      | .ret0 => .ret (some 0)
      | .push cur => .pushed [cur, cur]
      | .done cur _ =>
        if cur.testpos = [] then
          if skipStars cur.globpos = [] then .ret (some 0) else .ret (some (-1))
        else
          match p.testpos with
          | [] => .ret none
          | _ :: t => .retried [⟨t, p.globpos⟩, ⟨t, p.globpos⟩] := by
  have hb : ∀ cur, backtrack (setBack [p, c] cur) =
      match p.testpos with
      | [] => none
      | _ :: t => some [⟨t, p.globpos⟩, ⟨t, p.globpos⟩] := fun cur => by
    have := backtrack_append_two [] p cur
    simpa [setBack] using this
  have hl : (p :: [c]).getLast? = some c := rfl
  unfold step
  simp only [hl]
  split
  · rfl
  · simp [pushCapped, setBack]
  · split
    · rfl
    · simp only [List.length_cons, List.length_nil, Nat.reduceAdd, OfNat.ofNat_ne_one,
        if_false]
      rw [hb]
      cases p.testpos <;> rfl

theorem scan_push_testpos_suffix {t g : List Byte} {cur : position}
    (h : scan t g = .push cur) : cur.testpos <:+ t ∧ cur.testpos ≠ [] := by
  revert h
  refine scan_induction (fun t g r => r = .push cur → cur.testpos <:+ t ∧ cur.testpos ≠ [])
    ?_ ?_ ?_ ?_ ?_ ?_ ?_ t g
  · intro g h; cases h
  · intro tc t h; cases h
  · intro tc t g ih h; exact ⟨(ih h).1.trans (List.suffix_cons tc t), (ih h).2⟩
  · intro tc t g _ h; cases h
  · intro tc t g _ h; cases h; exact ⟨List.suffix_refl _, by simp⟩
  · intro tc t gc g _ _ _ h; cases h
  · intro tc t g _ _ ih h; exact ⟨(ih h).1.trans (List.suffix_cons tc t), (ih h).2⟩

theorem step_one_pushed {c : position} {ps' : List position} (h : step [c] = .pushed ps') :
    ∃ cur, scan c.testpos c.globpos = .push cur ∧ ps' = [cur, cur] := by
  rw [step_one] at h
  cases hs : scan c.testpos c.globpos with
  | ret0 => simp [hs] at h
  | push cur => simp only [hs, StepResult.pushed.injEq] at h; exact ⟨cur, rfl, h.symm⟩
  | done cur m =>
    simp only [hs] at h
    split at h
    · split at h <;> cases h
    · split at h <;> cases h

theorem step_one_not_retried (c : position) (ps' : List position) :
    step [c] ≠ .retried ps' := by
  intro h
  rw [step_one] at h
  cases hs : scan c.testpos c.globpos with
  | ret0 => simp [hs] at h
  | push cur => simp [hs] at h
  | done cur m =>
    simp only [hs] at h
    split at h
    · split at h <;> cases h
    · split at h <;> cases h

theorem step_one_in_bounds (c : position) : step [c] ≠ .ret none := by
  intro h
  rw [step_one] at h
  cases hs : scan c.testpos c.globpos with
  | ret0 => simp [hs] at h
  | push cur => simp [hs] at h
  | done cur m =>
    simp only [hs] at h
    split at h
    · split at h <;> cases h
    · split at h <;> cases h

theorem step_two_pushed {p c : position} {ps' : List position}
    (h : step [p, c] = .pushed ps') :
    ∃ cur, scan c.testpos c.globpos = .push cur ∧ ps' = [cur, cur] := by
  rw [step_two] at h
  cases hs : scan c.testpos c.globpos with
  | ret0 => simp [hs] at h
  | push cur => simp only [hs, StepResult.pushed.injEq] at h; exact ⟨cur, rfl, h.symm⟩
  | done cur m =>
    simp only [hs] at h
    split at h
    · split at h <;> cases h
    · split at h <;> cases h

theorem step_two_retried {p c : position} {ps' : List position}
    (h : step [p, c] = .retried ps') :
    ∃ cur m b t, scan c.testpos c.globpos = .done cur m ∧ cur.testpos ≠ [] ∧
      p.testpos = b :: t ∧ ps' = [⟨t, p.globpos⟩, ⟨t, p.globpos⟩] := by
  rw [step_two] at h
  cases hs : scan c.testpos c.globpos with
  | ret0 => simp [hs] at h
  | push cur => simp [hs] at h
  | done cur m =>
    simp only [hs] at h
    split at h
    · split at h <;> cases h
    · rename_i ht
      split at h
      · cases h
      · rename_i b t hp
        simp only [StepResult.retried.injEq] at h
        exact ⟨cur, m, b, t, rfl, ht, hp, h.symm⟩

theorem step_two_out_of_bounds {p c : position} (h : step [p, c] = .ret none) :
    ∃ cur m, scan c.testpos c.globpos = .done cur m ∧ cur.testpos ≠ [] ∧ p.testpos = [] := by
  rw [step_two] at h
  cases hs : scan c.testpos c.globpos with
  | ret0 => simp [hs] at h
  | push cur => simp [hs] at h
  | done cur m =>
    simp only [hs] at h
    split at h
    · split at h <;> cases h
    · rename_i ht
      split at h
      · rename_i hp; exact ⟨cur, m, rfl, ht, hp⟩
      · cases h

theorem advance_eq_some {st st' : RunState} (ha : advance st = some st') :
    (∃ ps', step st.positions = .pushed ps' ∧ st' = ⟨ps', st.stars + 1, st.retries⟩) ∨
      (∃ ps', step st.positions = .retried ps' ∧ st' = ⟨ps', st.stars, st.retries + 1⟩) := by
  unfold advance at ha
  cases hs : step st.positions with
  | ret r => simp [hs] at ha
  | pushed ps' => simp only [hs, Option.some.injEq] at ha; exact Or.inl ⟨ps', rfl, ha.symm⟩
  | retried ps' => simp only [hs, Option.some.injEq] at ha; exact Or.inr ⟨ps', rfl, ha.symm⟩

theorem advance_inv {s p : List Byte} {st st' : RunState} (hi : LoopInv s p st)
    (ha : advance st = some st') : LoopInv s p st' := by
  rcases hi with rfl | ⟨c, hc, hs, hr⟩
  · rcases advance_eq_some ha with ⟨ps', h, rfl⟩ | ⟨ps', h, rfl⟩
    · obtain ⟨cur, hscan, rfl⟩ := step_one_pushed h
      refine Or.inr ⟨cur, rfl, Nat.succ_pos _, ?_⟩
      have := (scan_push_testpos_suffix hscan).1.length_le
      simpa using this
    · exact absurd h (step_one_not_retried _ _)
  · rcases advance_eq_some ha with ⟨ps', h, rfl⟩ | ⟨ps', h, rfl⟩
    · rw [hc] at h
      obtain ⟨cur, hscan, rfl⟩ := step_two_pushed h
      refine Or.inr ⟨cur, rfl, Nat.succ_pos _, ?_⟩
      have := (scan_push_testpos_suffix hscan).1.length_le
      simp only
      omega
    · rw [hc] at h
      obtain ⟨cur, m, b, t, _, _, ht, rfl⟩ := step_two_retried h
      refine Or.inr ⟨⟨t, c.globpos⟩, rfl, hs, ?_⟩
      rw [ht] at hr
      simp only [List.length_cons] at hr ⊢
      omega

theorem stateAt_inv {s p : List Byte} {k : Nat} {st : RunState}
    (h : stateAt s p k = some st) : LoopInv s p st := by
  induction k generalizing st with
  | zero =>
    simp only [stateAt, Option.some.injEq] at h
    exact Or.inl h.symm
  | succ k ih =>
    simp only [stateAt, Option.bind_eq_some] at h
    obtain ⟨st0, h0, ha⟩ := h
    exact advance_inv (ih h0) ha

/-- Every access of the `*`-skipping loop is in bounds, and the checked loop computes
`skipStars`. -/
theorem skipStarsChecked_eq (g : List Byte) : skipStarsChecked g = some (skipStars g) := by
  induction g with
  | nil => rw [skipStarsChecked]; simp [skipStars]
  | cons c g ih =>
    rw [skipStarsChecked]
    by_cases hc : c = star
    · simp [front, removePrefix, skipStars, hc, ih]
    · simp [front, skipStars, hc]

/-- Every `testpos[0]`, `globpos[0]` and `remove_prefix(1)` of the `for` loop is in
bounds, and the checked loop computes `scan`. -/
theorem scanChecked_eq (t g : List Byte) : scanChecked t g = some (scan t g) := by
  induction g generalizing t with
  | nil =>
    rw [scanChecked]
    cases t <;> simp [scan]
  | cons gc g ih =>
    cases t with
    | nil => rw [scanChecked]; simp [scan]
    | cons tc t =>
      rw [scanChecked]
      by_cases hq : gc = qmark
      · simp [front, removePrefix, scan, hq, ih]
      · by_cases hs : gc = star
        · subst hs
          by_cases he : skipStars (star :: g) = []
          · simp [front, scan, hq, skipStarsChecked_eq, he]
          · simp [front, scan, hq, skipStarsChecked_eq, he]
        · by_cases hne : gc = tc
          · subst hne
            simp [front, removePrefix, scan, hq, hs, ih]
          · simp [front, scan, hq, hs, hne]

theorem checkpoint_pair (p c : position) : checkpoint [p, c] = some p := by
  simp [checkpoint]

theorem checkpoint_single (c : position) : checkpoint [c] = none := by
  simp [checkpoint]

/-! ## The claims -/

/-- C1, at the input `glob("abc", "a")`: the code returns 0 (Match) although the pattern
`a` does not match the whole of `abc` under the reference semantics. -/
theorem glob_abc_a_returns_match :
    glob (bytes "abc") (bytes "a") = some 0 ∧ refMatch (bytes "a") (bytes "abc") = false :=
  ⟨glob_eq_of_loopFuel 1 (by decide), by decide⟩

/-- C2, at the input `glob("abc", "")`: the code returns 0 (Match), not -1, for the empty
pattern on a non-empty subject. -/
theorem glob_abc_empty_returns_match :
    glob (bytes "abc") (bytes "") = some 0 ∧ bytes "abc" ≠ [] :=
  ⟨glob_eq_of_loopFuel 1 (by decide), by decide⟩

/-- C3: no valid match is lost by keeping only the two most recent checkpoints: whenever
the pattern `p` matches the subject `s` under the reference semantics, `glob(s, p)`
returns 0, whatever the number of `*` in `p`. -/
theorem glob_complete (s p : List Byte) (h : refMatch p s = true) : glob s p = some 0 :=
  glob_of_refMatch h

/-- Witness of C3: `glob("aaa", "a*a*a") = 0`. -/
theorem glob_complete_witness :
    refMatch (bytes "a*a*a") (bytes "aaa") = true ∧
      glob (bytes "aaa") (bytes "a*a*a") = some 0 :=
  ⟨by decide, glob_complete (bytes "aaa") (bytes "a*a*a") (by decide)⟩

/-- C4: for a literal `w` (no `*`, no `?`), `glob(s, "*" ++ w ++ "*")` returns 0 iff `w`
is a contiguous substring of `s`, and -1 otherwise. -/
theorem glob_substring (s w : List Byte) (hs : star ∉ w) (hq : qmark ∉ w) :
    (glob s (star :: (w ++ [star])) = some 0 ↔ w <:+: s) ∧
      (¬ w <:+: s → glob s (star :: (w ++ [star])) = some (-1)) := by
  have h := glob_of_star_mem (s := s) (p := star :: (w ++ [star])) (List.mem_cons_self _ _)
  rw [h, some_ite_eq_zero_iff, some_ite_eq_neg_one_iff, refMatch_substring hs hq]
  exact ⟨Iff.rfl, id⟩

/-- Witness of C4: `glob("abcdef", "*cd*") = 0` and `glob("abcdef", "*xyz*") = -1`. -/
theorem glob_substring_witness :
    ((glob (bytes "abcdef") (star :: (bytes "cd" ++ [star])) = some 0 ↔
        bytes "cd" <:+: bytes "abcdef") ∧
      (¬ bytes "cd" <:+: bytes "abcdef" →
        glob (bytes "abcdef") (star :: (bytes "cd" ++ [star])) = some (-1))) ∧
    glob (bytes "abcdef") (star :: (bytes "xyz" ++ [star])) = some (-1) :=
  ⟨glob_substring (bytes "abcdef") (bytes "cd") (by decide) (by decide),
    (glob_substring (bytes "abcdef") (bytes "xyz") (by decide) (by decide)).2 (by decide)⟩

/-- C5: for literals `a` and `b` (no `*`, no `?`), `glob(s, a ++ "*" ++ b)` returns 0 iff
`a` is a prefix of `s`, `b` is a suffix of `s` and `length s ≥ length a + length b`. -/
theorem glob_prefix_suffix (s a b : List Byte) (has : star ∉ a) (haq : qmark ∉ a)
    (hbs : star ∉ b) (hbq : qmark ∉ b) :
    glob s (a ++ star :: b) = some 0 ↔
      a <+: s ∧ b <:+ s ∧ a.length + b.length ≤ s.length := by
  have h := glob_of_star_mem (s := s) (p := a ++ star :: b)
    (List.mem_append_right a (List.mem_cons_self _ _))
  rw [h, some_ite_eq_zero_iff, refMatch_prefix_suffix has haq hbs hbq]

/-- Witness of C5: `glob("abcdef", "a*f") = 0`. -/
theorem glob_prefix_suffix_witness :
    glob (bytes "abcdef") (bytes "a" ++ star :: bytes "f") = some 0 :=
  (glob_prefix_suffix (bytes "abcdef") (bytes "a") (bytes "f")
    (by decide) (by decide) (by decide) (by decide)).2
    ⟨by decide, by decide, by decide⟩

/-- C6: a string used as its own pattern matches itself, `glob(s, s) = 0`, whether or not
it contains `?` or `*` bytes. -/
theorem glob_self (s : List Byte) : glob s s = some 0 :=
  glob_of_refMatch (refMatch_self s)

/-- C7: a pattern of `n ≥ 1` bytes `*` matches every subject, so it gives the same result
as the pattern `*`. -/
theorem glob_stars (s : List Byte) (n : Nat) (hn : 1 ≤ n) :
    glob s (List.replicate n star) = some 0 ∧
      glob s (List.replicate n star) = glob s [star] := by
  have h1 : glob s [star] = some 0 := glob_of_refMatch (refMatch_single_star s)
  have h2 : glob s (List.replicate n star) = some 0 := by
    obtain ⟨k, rfl⟩ : ∃ k, n = k + 1 := ⟨n - 1, by omega⟩
    rw [List.replicate_succ]
    exact glob_of_refMatch (refMatch_star_of_skipStars_nil (skipStars_replicate k) s)
  exact ⟨h2, h2.trans h1.symm⟩

/-- Witness of C7: the pattern `***` on the empty subject. -/
theorem glob_stars_witness :
    glob [] (List.replicate 3 star) = some 0 ∧
      glob [] (List.replicate 3 star) = glob [] [star] :=
  glob_stars [] 3 (by decide)

/-- C8: on the empty subject `glob` returns 0 iff the pattern consists only of `*` bytes
(the empty pattern included), and -1 otherwise. -/
theorem glob_empty_subject (p : List Byte) :
    (glob [] p = some 0 ↔ ∀ b ∈ p, b = star) ∧
      (¬ (∀ b ∈ p, b = star) → glob [] p = some (-1)) := by
  have h := glob_of_length_le (s := []) (p := p) (Nat.zero_le _)
  rw [h, some_ite_eq_zero_iff, some_ite_eq_neg_one_iff, refMatch_nil_right,
    skipStars_eq_nil_iff]
  exact ⟨Iff.rfl, id⟩

/-- C9: for a pattern without `*` that is as long as the subject, `glob` returns 0 iff at
every index the pattern byte is `?` or equals the subject byte, and -1 otherwise. -/
theorem glob_pointwise (s p : List Byte) (hs : star ∉ p) (hl : p.length = s.length) :
    (glob s p = some 0 ↔ ∀ i, i < p.length → p[i]? = some qmark ∨ p[i]? = s[i]?) ∧
      (¬ (∀ i, i < p.length → p[i]? = some qmark ∨ p[i]? = s[i]?) →
        glob s p = some (-1)) := by
  have h := glob_of_length_le (s := s) (p := p) (Nat.le_of_eq hl.symm)
  rw [h, some_ite_eq_zero_iff, some_ite_eq_neg_one_iff, refMatch_pointwise hs s hl]
  exact ⟨Iff.rfl, id⟩

/-- Witness of C9: `glob("abc", "a?c") = 0` and `glob("abc", "a?d") = -1`. -/
theorem glob_pointwise_witness :
    glob (bytes "abc") (bytes "a?c") = some 0 ∧ glob (bytes "abc") (bytes "a?d") = some (-1) :=
  ⟨(glob_pointwise (bytes "abc") (bytes "a?c") (by decide) (by decide)).1.2 (by decide),
    (glob_pointwise (bytes "abc") (bytes "a?d") (by decide) (by decide)).2 (by decide)⟩

/-- C10: when `glob(s, p)` returns 0 the subject has at least one byte for every byte of
the pattern that is not `*`; in particular, when the pattern ends in `?`, the subject is
strictly longer than what the bytes before that `?` need. -/
theorem glob_match_length (s p : List Byte) (h : glob s p = some 0) :
    nonStar p ≤ s.length ∧ ∀ q, p = q ++ [qmark] → nonStar q < s.length := by
  have key : nonStar p ≤ s.length := by
    rw [glob_spec, some_ite_eq_zero_iff, Bool.or_eq_true] at h
    rcases h with h | h
    · exact nonStar_le_of_refMatch h
    · have h1 := scanLeftover_length h
      have h2 : nonStar p ≤ p.length := List.length_filter_le _ _
      omega
  refine ⟨key, ?_⟩
  rintro q rfl
  have : nonStar (q ++ [qmark]) = nonStar q + 1 := by
    simp [nonStar, List.filter_append]
    decide
  omega

/-- Witness of C10: `glob("ab", "*a?") = 0`, and the subject has two bytes. -/
theorem glob_match_length_witness :
    nonStar (bytes "*a?") ≤ (bytes "ab").length ∧
      ∀ q, bytes "*a?" = q ++ [qmark] → nonStar q < (bytes "ab").length :=
  glob_match_length (bytes "ab") (bytes "*a?") (glob_eq_of_loopFuel 3 (by decide))

/-- Witness of C8: `glob("", "") = 0`, `glob("", "?") = -1` and `glob("", "a") = -1`. -/
theorem glob_empty_subject_witness :
    glob [] (bytes "") = some 0 ∧ glob [] (bytes "?") = some (-1) ∧
      glob [] (bytes "a") = some (-1) :=
  ⟨(glob_empty_subject (bytes "")).1.2 (by decide),
    (glob_empty_subject (bytes "?")).2 (by decide),
    (glob_empty_subject (bytes "a")).2 (by decide)⟩

/-- C11: for every subject and pattern `glob` returns exactly 0 or -1, and never -2
(InvalidPattern), whatever bytes (`[`, `]` included) the pattern contains. -/
theorem glob_result_range (s p : List Byte) :
    (glob s p = some 0 ∨ glob s p = some (-1)) ∧ glob s p ≠ some (-2) := by
  rw [glob_spec]
  by_cases h : (refMatch p s || scanLeftover s p) = true
  · rw [if_pos h]; exact ⟨Or.inl rfl, by decide⟩
  · rw [if_neg h]; exact ⟨Or.inr rfl, by decide⟩

/-- C13: consecutive `*` bytes anywhere in a pattern collapse to one: for `n ≥ 1`,
`glob(s, a ++ "*"^n ++ b) = glob(s, a ++ "*" ++ b)`. -/
theorem glob_star_run (s a b : List Byte) (n : Nat) (hn : 1 ≤ n) :
    glob s (a ++ List.replicate n star ++ b) = glob s (a ++ [star] ++ b) := by
  obtain ⟨k, rfl⟩ : ∃ k, n = k + 1 := ⟨n - 1, by omega⟩
  rw [List.append_assoc, List.append_assoc, List.singleton_append]
  have h1 : star ∈ a ++ (List.replicate (k + 1) star ++ b) := by
    simp [List.replicate_succ]
  have h2 : star ∈ a ++ star :: b := by simp
  rw [glob_of_star_mem h1, glob_of_star_mem h2,
    refMatch_append_congr a (refMatch_replicate_star k b) s]

/-- Witness of C13: `glob("abc", "a***c") = glob("abc", "a*c")`. -/
theorem glob_star_run_witness :
    glob (bytes "abc") (bytes "a" ++ List.replicate 3 star ++ bytes "c") =
      glob (bytes "abc") (bytes "a" ++ [star] ++ bytes "c") :=
  glob_star_run (bytes "abc") (bytes "a") (bytes "c") 3 (by decide)

/-- C14: a trailing wildcard absorbs any remaining subject: if `glob(s, p)` returns 0 then
`glob(s ++ t, p ++ "*")` returns 0. -/
theorem glob_trailing_star (s t p : List Byte) (h : glob s p = some 0) :
    glob (s ++ t) (p ++ [star]) = some 0 := by
  apply glob_of_refMatch
  rw [glob_spec, some_ite_eq_zero_iff, Bool.or_eq_true] at h
  rcases h with h | h
  · exact refMatch_append_star h t
  · obtain ⟨s1, s2, rfl, _, hm⟩ := scanLeftover_prefix h
    rw [List.append_assoc]
    exact refMatch_append_star hm (s2 ++ t)

/-- Witness of C14: `glob("ab", "a?") = 0`, so `glob("abcd", "a?*") = 0`. -/
theorem glob_trailing_star_witness :
    glob (bytes "ab" ++ bytes "cd") (bytes "a?" ++ [star]) = some 0 :=
  glob_trailing_star (bytes "ab") (bytes "cd") (bytes "a?") (glob_eq_of_loopFuel 1 (by decide))

/-- C17: on patterns that contain a `*`, the two-slot backtracking loop equals the
reference matcher in both directions: `glob` returns 0 when the pattern matches the whole
subject and -1 when it does not. -/
theorem glob_refines_refMatch (s p : List Byte) (hp : star ∈ p) :
    (refMatch p s = true → glob s p = some 0) ∧
      (refMatch p s = false → glob s p = some (-1)) ∧
      (glob s p = some 0 ↔ refMatch p s = true) := by
  rw [glob_of_star_mem hp]
  refine ⟨fun h => by rw [if_pos h], fun h => by rw [if_neg (by simp [h])], ?_⟩
  exact some_ite_eq_zero_iff _

/-- Witness of C17: the pattern `a*a*a*a` on `aaa` (no match) and on `aaaa` (match). -/
theorem glob_refines_refMatch_witness :
    glob (bytes "aaa") (bytes "a*a*a*a") = some (-1) ∧
      glob (bytes "aaaa") (bytes "a*a*a*a") = some 0 :=
  ⟨(glob_refines_refMatch (bytes "aaa") (bytes "a*a*a*a") (by decide)).2.1 (by decide),
    (glob_refines_refMatch (bytes "aaaa") (bytes "a*a*a*a") (by decide)).1 (by decide)⟩

/-- C18: for a pattern without `*`, `glob` returns 0 iff the pattern is no longer than the
subject and matches it byte for byte on its own length (`?` matching any byte); so
`glob(s, p) = glob(s, p ++ "*")`. -/
theorem glob_star_free (s p : List Byte) (hp : star ∉ p) :
    (glob s p = some 0 ↔
        p.length ≤ s.length ∧ ∀ i, i < p.length → p[i]? = some qmark ∨ p[i]? = s[i]?) ∧
      glob s p = glob s (p ++ [star]) := by
  have h1 : glob s (p ++ [star]) = some (if refMatch (p ++ [star]) s = true then 0 else -1) :=
    glob_of_star_mem (by simp)
  have h2 : glob s p = some (if refMatch (p ++ [star]) s = true then 0 else -1) := by
    rw [glob_spec, refMatch_or_scanLeftover hp]
  refine ⟨?_, h2.trans h1.symm⟩
  rw [h2, some_ite_eq_zero_iff, refMatch_star_free_prefix hp]

/-- Witness of C18: `glob("abc", "a?") = 0 = glob("abc", "a?*")`. -/
theorem glob_star_free_witness :
    glob (bytes "abc") (bytes "a?") = some 0 ∧
      glob (bytes "abc") (bytes "a?") = glob (bytes "abc") (bytes "a?" ++ [star]) :=
  ⟨(glob_star_free (bytes "abc") (bytes "a?") (by decide)).1.2
      ⟨by decide, by decide⟩,
    (glob_star_free (bytes "abc") (bytes "a?") (by decide)).2⟩

/-- C12: the loop of `glob` reaches a `return` after finitely many iterations: for some
`n`, the loop cut off after `n` iterations ends with the value `glob` returns; and every
iteration that does not return lowers the well-founded measure of `loop` (the pattern
remainder, then the subject remainder of the checkpoint) in the lexicographic order. -/
theorem glob_terminates (s p : List Byte) :
    (∃ n r, loopFuel n [⟨s, p⟩] = some (some r) ∧ glob s p = some r) ∧
      ∀ ps ps', (step ps = .pushed ps' ∨ step ps = .retried ps') →
        Prod.Lex (· < ·) (· < ·) (loopMeasure ps') (loopMeasure ps) := by
  refine ⟨?_, fun ps ps' h => step_decreasing h⟩
  obtain ⟨n, hn⟩ := exists_loopFuel [⟨s, p⟩]
  have hg : loop [⟨s, p⟩] = some (if (refMatch p s || scanLeftover s p) = true then 0 else -1) :=
    glob_spec s p
  exact ⟨n, _, hn.trans (congrArg some hg), hg⟩

/-- Witness of C12: the call `glob("aaa", "a*a*a")` returns after finitely many
iterations. -/
theorem glob_terminates_witness :
    ∃ n r, loopFuel n [⟨bytes "aaa", bytes "a*a*a"⟩] = some (some r) ∧
      glob (bytes "aaa") (bytes "a*a*a") = some r :=
  (glob_terminates (bytes "aaa") (bytes "a*a*a")).1

/-- C15: at the start of every iteration of the outer loop the vector `positions` holds 1
or 2 entries; it holds exactly 1 iff no `*` has been processed so far; and right after a
`*` is processed its two entries are equal. -/
theorem positions_size (s p : List Byte) (k : Nat) (st : RunState)
    (h : stateAt s p k = some st) :
    (st.positions.length = 1 ∨ st.positions.length = 2) ∧
      (st.positions.length = 1 ↔ st.stars = 0) ∧
      ∀ ps', step st.positions = .pushed ps' → ∃ c, ps' = [c, c] := by
  rcases stateAt_inv h with rfl | ⟨c, hc, hs, _⟩
  · refine ⟨Or.inl rfl, by simp, fun ps' hp => ?_⟩
    obtain ⟨cur, _, rfl⟩ := step_one_pushed hp
    exact ⟨cur, rfl⟩
  · refine ⟨Or.inr (by rw [hc]; rfl), ?_, fun ps' hp => ?_⟩
    · rw [hc]
      simp only [List.length_cons, List.length_nil]
      omega
    · rw [hc] at hp
      obtain ⟨cur, _, rfl⟩ := step_two_pushed hp
      exact ⟨cur, rfl⟩

/-- Witness of C15: iteration 1 of `glob("aaa", "a*a*a")` starts with two equal entries,
after one `*`. -/
theorem positions_size_witness :
    ((⟨[⟨bytes "aa", bytes "a*a"⟩, ⟨bytes "aa", bytes "a*a"⟩], 1, 0⟩ : RunState).positions.length
        = 2) ∧
      stateAt (bytes "aaa") (bytes "a*a*a") 1 =
        some ⟨[⟨bytes "aa", bytes "a*a"⟩, ⟨bytes "aa", bytes "a*a"⟩], 1, 0⟩ :=
  ⟨((positions_size (bytes "aaa") (bytes "a*a*a") 1
      ⟨[⟨bytes "aa", bytes "a*a"⟩, ⟨bytes "aa", bytes "a*a"⟩], 1, 0⟩ (by decide)).1).resolve_left
      (by decide), by decide⟩

/-- C16: in any call `glob(s, p)` the number of backtrack retries is at most `length s`:
each retry shortens the subject remainder of the checkpoint by one byte, and recording a
new checkpoint at a later `*` never lengthens it. -/
theorem retries_bound (s p : List Byte) (k : Nat) (st : RunState)
    (h : stateAt s p k = some st) :
    st.retries ≤ s.length ∧
      (∀ ps', step st.positions = .retried ps' →
        ∃ c c', checkpoint st.positions = some c ∧ checkpoint ps' = some c' ∧
          c'.testpos.length + 1 = c.testpos.length) ∧
      (∀ ps' c, step st.positions = .pushed ps' → checkpoint st.positions = some c →
        ∃ c', checkpoint ps' = some c' ∧ c'.testpos.length ≤ c.testpos.length) := by
  rcases stateAt_inv h with rfl | ⟨c, hc, hs, hr⟩
  · refine ⟨Nat.zero_le _, fun ps' hp => absurd hp (step_one_not_retried _ _), ?_⟩
    intro ps' c _ hcp
    rw [checkpoint_single] at hcp
    cases hcp
  · refine ⟨by omega, fun ps' hp => ?_, fun ps' c0 hp hcp => ?_⟩
    · rw [hc] at hp
      obtain ⟨cur, m, b, t, _, _, ht, rfl⟩ := step_two_retried hp
      refine ⟨c, ⟨t, c.globpos⟩, by rw [hc, checkpoint_pair], checkpoint_pair _ _, ?_⟩
      rw [ht]; rfl
    · rw [hc] at hp hcp
      rw [checkpoint_pair] at hcp
      cases hcp
      obtain ⟨cur, hscan, rfl⟩ := step_two_pushed hp
      exact ⟨cur, checkpoint_pair _ _, (scan_push_testpos_suffix hscan).1.length_le⟩

/-- Witness of C16: iteration 3 of `glob("aab", "*b")` starts after two retries, and the
subject has three bytes. -/
theorem retries_bound_witness :
    (2 : Nat) ≤ (bytes "aab").length ∧
      stateAt (bytes "aab") (bytes "*b") 3 =
        some ⟨[⟨bytes "b", bytes "b"⟩, ⟨bytes "b", bytes "b"⟩], 1, 2⟩ :=
  ⟨(retries_bound (bytes "aab") (bytes "*b") 3
      ⟨[⟨bytes "b", bytes "b"⟩, ⟨bytes "b", bytes "b"⟩], 1, 2⟩ (by decide)).1, by decide⟩

/-- C19: every index and prefix removal of `glob` is in bounds: the call never takes an
out-of-bounds branch, at no iteration; whenever the backtrack branch runs, the subject
remainder of the checkpoint is non-empty, the current subject remainder being a non-empty
suffix of it; and every `[0]` and `remove_prefix(1)` of the scan acts on a non-empty
view. -/
theorem glob_in_bounds (s p : List Byte) :
    glob s p ≠ none ∧
      (∀ k st, stateAt s p k = some st → step st.positions ≠ .ret none) ∧
      (∀ k st current cur m, stateAt s p k = some st →
        st.positions.getLast? = some current →
        scan current.testpos current.globpos = .done cur m →
        cur.testpos ≠ [] → st.positions.length ≠ 1 →
        ∃ previous, checkpoint (setBack st.positions cur) = some previous ∧
          cur.testpos <:+ previous.testpos ∧ previous.testpos ≠ []) ∧
      (∀ t g, scanChecked t g = some (scan t g)) ∧
      (∀ g, skipStarsChecked g = some (skipStars g)) := by
  refine ⟨?_, ?_, ?_, scanChecked_eq, skipStarsChecked_eq⟩
  · rw [glob_spec]; exact Option.some_ne_none _
  · intro k st h hn
    rcases stateAt_inv h with rfl | ⟨c, hc, _, _⟩
    · exact step_one_in_bounds _ hn
    · rw [hc] at hn
      obtain ⟨cur, m, hscan, hne, hp⟩ := step_two_out_of_bounds hn
      have := scan_done_testpos_suffix hscan
      rw [hp, List.suffix_nil] at this
      exact hne this
  · intro k st current cur m h hl hscan hne hlen
    rcases stateAt_inv h with rfl | ⟨c, hc, _, _⟩
    · exact absurd rfl hlen
    · rw [hc] at hl
      have : current = c := by simpa using hl.symm
      subst this
      have hsuf := scan_done_testpos_suffix hscan
      refine ⟨current, by rw [hc]; simp [setBack, checkpoint], hsuf, ?_⟩
      intro he
      rw [he, List.suffix_nil] at hsuf
      exact hne hsuf

/-- Witness of C19: the call `glob("aab", "*b")`, which backtracks twice, stays in
bounds. -/
theorem glob_in_bounds_witness : glob (bytes "aab") (bytes "*b") ≠ none :=
  (glob_in_bounds (bytes "aab") (bytes "*b")).1

end Glob
